import Mathlib

/-!
Verification of the blog content pipeline: shallow embedding of
`src/app/src/markdown.rs` (heading-anchor and code-highlighter event
transformers) and `src/crates/site-app/src/posts.rs` /
`src/app/src/posts.rs` (front-matter extraction and the post
repository), together with proofs of the specified properties.

External crates used by the source (`pulldown_cmark` events, the `slug`
crate's slugifier, `gray_matter`'s front-matter split, `syntect`'s
grammar lookup and renderer) are modelled at their interfaces: the event
type mirrors `pulldown_cmark::Event`, the slugifier implements the
lowercase / non-alphanumeric-run-to-hyphen / trim transformation, the
grammar set and HTML renderer are abstract parameters (`find`, `render`)
since their tables live outside this repository.
-/

namespace Blog

/-- `pulldown_cmark::CodeBlockKind`: a fenced block carries its
info-string language token, an indented block carries nothing. -/
inductive CodeBlockKind where
  | fenced (lang : String)
  | indented
deriving DecidableEq, Repr

/-- `pulldown_cmark::Tag`, restricted to the constructors the source
code distinguishes: headings and code blocks.  Every other tag (e.g.
paragraph, emphasis) behaves identically in both transformers and is
represented by `other` with its name. -/
inductive Tag where
  | heading (level : Nat)
  | codeBlock (kind : CodeBlockKind)
  | other (name : String)
deriving DecidableEq, Repr

/-- `pulldown_cmark::Event`: start/end of a block, a text run, an inline
code span, a raw-HTML passthrough, or one of the remaining punctual
events (soft/hard break, rule, ...) collapsed into `misc`. -/
inductive MdEvent where
  | start (t : Tag)
  | end_ (t : Tag)
  | text (s : String)
  | code (s : String)
  | html (s : String)
  | misc (name : String)
deriving DecidableEq, Repr

/-- ASCII alphanumeric test used by the slugifier. -/
def isAlnum (c : Char) : Bool := c.isAlpha || c.isDigit

/-- Collapse adjacent hyphens into one. -/
def squeezeHyphens : List Char → List Char
  | [] => []
  | c :: cs =>
    match squeezeHyphens cs with
    | [] => [c]
    | d :: ds => if c = '-' && d = '-' then d :: ds else c :: d :: ds

/-- Drop hyphens from both ends. -/
def trimHyphens (cs : List Char) : List Char :=
  ((cs.dropWhile (· = '-')).reverse.dropWhile (· = '-')).reverse

/-- Model of `slug::slugify` on ASCII input: lowercase, map every
non-alphanumeric run to a single hyphen, trim hyphens at the ends. -/
def slugify (s : String) : String :=
  String.mk (trimHyphens (squeezeHyphens
    (s.data.map fun c => if isAlnum c then c.toLower else '-')))

/-- The raw-HTML anchor fragment pushed after a heading's text in
`add_markdown_heading_ids`. -/
def anchorHtml (slug : String) : String :=
  "<a href=\"#" ++ slug ++ "\" id=\"" ++ slug ++
    "\"><span class=\"anchor-icon\">#</span></a>"

/-- The loop of `add_markdown_heading_ids` (src/app/src/markdown.rs):
state is the `parsing_header` flag and the `heading_id` accumulator.
On heading start the accumulator is cleared; on heading end the slug is
computed and a space text event plus the anchor raw-HTML event are
pushed BEFORE the original end event is re-emitted; text events are
accumulated while inside a heading and always passed through; all other
events pass through unchanged. -/
def addIdsGo : List MdEvent → Bool → String → List MdEvent
  | [], _, _ => []
  | .start (.heading l) :: rest, _, _ =>
      .start (.heading l) :: addIdsGo rest true ""
  | .end_ (.heading l) :: rest, _, hid =>
      .text " " :: .html (anchorHtml (slugify hid)) ::
        .end_ (.heading l) :: addIdsGo rest false (slugify hid)
  | .text s :: rest, parsing, hid =>
      .text s :: addIdsGo rest parsing (if parsing then hid ++ s else hid)
  | e :: rest, parsing, hid => e :: addIdsGo rest parsing hid

/-- `add_markdown_heading_ids`: run the loop from the initial state
(`parsing_header = false`, empty accumulator). -/
def add_markdown_heading_ids (events : List MdEvent) : List MdEvent :=
  addIdsGo events false ""

/-- Concatenation, in order, of the payloads of the `text` events of a
list onto an accumulator (the only events the heading accumulator
collects; inline `code` events contribute nothing). -/
def textAccum : List MdEvent → String → String
  | [], acc => acc
  | .text s :: rest, acc => textAccum rest (acc ++ s)
  | _ :: rest, acc => textAccum rest acc

/-- `true` on the heading start/end events, the only events that switch
the `parsing_header` state. -/
def touchesHeading : MdEvent → Bool
  | .start (.heading _) => true
  | .end_ (.heading _) => true
  | _ => false

/-- The loop of `highlight_code` (src/app/src/markdown.rs), parametric
in the grammar type `G`, the grammar-set lookup `find` (modelling
`SyntaxSet::find_syntax_by_token`) and the renderer `render` (modelling
`highlighted_html_for_string` with the fixed theme).  State: the
`in_code_block` flag, the currently selected grammar `syn` (initially
the plain-text grammar, and NOT reset between blocks: on a fenced start
whose token is not found, `unwrap_or(syntax)` keeps the previous
grammar), and the raw-text accumulator `acc` (cleared on block end).
The start event of a code block is dropped; its end event is replaced
by one raw-HTML event carrying the rendered accumulator; text inside a
block is accumulated, not forwarded; everything else passes through.
An end event outside a block is the source's
`panic!("this should never happen")`, modelled as `Except.error`. -/
def highlightGo {G : Type} (find : String → Option G)
    (render : G → String → String) :
    List MdEvent → Bool → G → String → Except String (List MdEvent)
  | [], _, _, _ => .ok []
  | .start (.codeBlock (.fenced lang)) :: rest, _, syn, acc =>
      highlightGo find render rest true ((find lang).getD syn) acc
  | .start (.codeBlock .indented) :: rest, _, syn, acc =>
      highlightGo find render rest true syn acc
  | .end_ (.codeBlock _) :: rest, inCode, syn, acc =>
      if inCode then
        (highlightGo find render rest false syn "").map
          fun out => .html (render syn acc) :: out
      else .error "this should never happen"
  | .text s :: rest, inCode, syn, acc =>
      if inCode then highlightGo find render rest true syn (acc ++ s)
      else
        (highlightGo find render rest inCode syn acc).map
          fun out => .text s :: out
  | e :: rest, inCode, syn, acc =>
      (highlightGo find render rest inCode syn acc).map fun out => e :: out

/-- `highlight_code`: run the loop from the initial state (not in a code
block, plain-text grammar selected, empty accumulator). -/
def highlight_code {G : Type} (find : String → Option G) (plain : G)
    (render : G → String → String) (events : List MdEvent) :
    Except String (List MdEvent) :=
  highlightGo find render events false plain ""

/-- Strict well-nesting of code-block events from a given
inside-a-block state: a start occurs only outside a block, an end only
inside, and the stream finishes outside (every start is matched by an
end before another block starts). -/
def wellNestedCode : List MdEvent → Bool → Bool
  | [], b => !b
  | .start (.codeBlock _) :: rest, b => !b && wellNestedCode rest true
  | .end_ (.codeBlock _) :: rest, b => b && wellNestedCode rest false
  | _ :: rest, b => wellNestedCode rest b

/-- Number of raw-HTML events in a stream. -/
def countHtml : List MdEvent → Nat
  | [] => 0
  | .html _ :: rest => countHtml rest + 1
  | _ :: rest => countHtml rest

/-- Number of code-block start events in a stream. -/
def countCodeStarts : List MdEvent → Nat
  | [] => 0
  | .start (.codeBlock _) :: rest => countCodeStarts rest + 1
  | _ :: rest => countCodeStarts rest

/-- Number of code-block end events in a stream. -/
def countCodeEnds : List MdEvent → Nat
  | [] => 0
  | .end_ (.codeBlock _) :: rest => countCodeEnds rest + 1
  | _ :: rest => countCodeEnds rest

/-- The payloads of the `text` events of a stream, in order. -/
def textsOf : List MdEvent → List String
  | [] => []
  | .text s :: rest => s :: textsOf rest
  | _ :: rest => textsOf rest

/-- The payloads of the `html` events of a stream, in order. -/
def htmlPayloads : List MdEvent → List String
  | [] => []
  | .html s :: rest => s :: htmlPayloads rest
  | _ :: rest => htmlPayloads rest

/-- The payloads of the `text` events that lie outside code blocks,
tracking the inside-a-block state. -/
def textsOutside : List MdEvent → Bool → List String
  | [], _ => []
  | .start (.codeBlock _) :: rest, _ => textsOutside rest true
  | .end_ (.codeBlock _) :: rest, _ => textsOutside rest false
  | .text s :: rest, b =>
      if b then textsOutside rest b else s :: textsOutside rest b
  | _ :: rest, b => textsOutside rest b

/-- The accumulated raw text of each code block of a stream (one string
per block, in order), with the same accumulator discipline as
`highlight_code`: not cleared on start, cleared after each end. -/
def blockContents : List MdEvent → Bool → String → List String
  | [], _, _ => []
  | .start (.codeBlock _) :: rest, _, acc => blockContents rest true acc
  | .end_ (.codeBlock _) :: rest, _, acc => acc :: blockContents rest false ""
  | .text s :: rest, b, acc =>
      blockContents rest b (if b then acc ++ s else acc)
  | _ :: rest, b, acc => blockContents rest b acc

/-- The info-string tokens of the fenced code-block start events of a
stream, in order. -/
def fencedTokens : List MdEvent → List String
  | [] => []
  | .start (.codeBlock (.fenced lang)) :: rest => lang :: fencedTokens rest
  | _ :: rest => fencedTokens rest

/-- `true` iff an `Except` value is `ok` (the loop did not hit the
panic branch). -/
def exceptOk {ε α : Type} : Except ε α → Bool
  | .ok _ => true
  | .error _ => false

/-- How a server-function call can fail in the source: a Rust `panic!`
(from `expect`/`unwrap`) or an explicitly returned `ServerFnError`. -/
inductive PErr where
  | panicked (msg : String)
  | serverError (msg : String)
deriving DecidableEq, Repr

/-- `true` iff two failures have the same kind (both panics, or both
returned server errors). -/
def PErr.sameKind : PErr → PErr → Bool
  | .panicked _, .panicked _ => true
  | .serverError _, .serverError _ => true
  | _, _ => false

/-- A dynamically typed front-matter value (`gray_matter::Pod`,
restricted to the shapes the source reads back: strings and booleans). -/
inductive Yaml where
  | str (s : String)
  | bool (b : Bool)
deriving DecidableEq, Repr

/-- A parsed front-matter mapping. -/
abbrev FrontMatter := List (String × Yaml)

/-- First value bound to a key in a front-matter mapping. -/
def getVal : FrontMatter → String → Option Yaml
  | [], _ => none
  | (k, v) :: rest, key => if k = key then some v else getVal rest key

/-- `Pod::as_string`: succeeds only on a string value. -/
def getStr (fm : FrontMatter) (key : String) : Option String :=
  match getVal fm key with
  | some (.str s) => some s
  | _ => none

/-- `Pod::as_bool`: succeeds only on a boolean value. -/
def getBool (fm : FrontMatter) (key : String) : Option Bool :=
  match getVal fm key with
  | some (.bool b) => some b
  | _ => none

/-- Split a character list into lines at `'\n'`. -/
def splitLinesAux : List Char → List Char → List (List Char)
  | [], cur => [cur.reverse]
  | c :: cs, cur =>
      if c = '\n' then cur.reverse :: splitLinesAux cs []
      else splitLinesAux cs (c :: cur)

/-- The lines of a character list. -/
def splitLines (cs : List Char) : List (List Char) := splitLinesAux cs []

/-- Join lines back with `'\n'`. -/
def unlines : List (List Char) → List Char
  | [] => []
  | [l] => l
  | l :: rest => l ++ '\n' :: unlines rest

/-- Drop spaces from both ends of a line. -/
def trimSpaces (cs : List Char) : List Char :=
  ((cs.dropWhile (· = ' ')).reverse.dropWhile (· = ' ')).reverse

/-- Split a line at its first `':'`, if any. -/
def splitColon : List Char → Option (List Char × List Char)
  | [] => none
  | c :: cs =>
      if c = ':' then some ([], cs)
      else
        match splitColon cs with
        | some (k, v) => some (c :: k, v)
        | none => none

/-- Parse one `key: value` line of the YAML front matter, with the
scalar coercions the source relies on: `true`/`false` become booleans,
a double-quoted scalar becomes the unquoted string, any other scalar is
taken as a string. -/
def parseYamlLine (l : List Char) : Option (String × Yaml) :=
  match splitColon l with
  | none => none
  | some (k, v) =>
    let key := String.mk (trimSpaces k)
    let val := trimSpaces v
    if val = ['t', 'r', 'u', 'e'] then some (key, .bool true)
    else if val = ['f', 'a', 'l', 's', 'e'] then some (key, .bool false)
    else
      match val with
      | '"' :: rest =>
          if rest ≠ [] && rest.getLast? = some '"' then
            some (key, .str (String.mk (rest.dropLast)))
          else some (key, .str (String.mk val))
      | _ => some (key, .str (String.mk val))

/-- Result of `Matter::<YAML>::parse`: an optional front-matter mapping
and the remaining content. -/
structure ParsedMatter where
  data : Option FrontMatter
  content : String
deriving DecidableEq, Repr

/-- The YAML front-matter open/close delimiter line `---`. -/
def yamlDelim : List Char := ['-', '-', '-']

/-- Find the closing delimiter line among the remaining lines,
returning the matter lines before it and the body lines after it. -/
def findCloseDelim :
    List (List Char) → Option (List (List Char) × List (List Char))
  | [] => none
  | l :: rest =>
      if l = yamlDelim then some ([], rest)
      else
        match findCloseDelim rest with
        | some (m, b) => some (l :: m, b)
        | none => none

/-- `true` iff the document's first line is the front-matter open
delimiter `---`. -/
def startsWithDelim (input : String) : Bool :=
  match splitLines input.data with
  | first :: _ => first = yamlDelim
  | [] => false

/-- Model of `Matter::<YAML>::new().parse(input)` (`gray_matter`
crate): if the first line is `---` and a closing `---` line follows,
the lines between are parsed as the mapping and the lines after are the
content; otherwise there is no mapping (`data = None`) and the content
is the entire input. -/
def parseMatter (input : String) : ParsedMatter :=
  match splitLines input.data with
  | [] => { data := none, content := input }
  | first :: rest =>
    if first = yamlDelim then
      match findCloseDelim rest with
      | some (matterLines, bodyLines) =>
        let fm := matterLines.filterMap parseYamlLine
        { data := if fm.isEmpty then none else some fm,
          content := String.mk (unlines bodyLines) }
      | none => { data := none, content := input }
    else { data := none, content := input }

/-- `PostMetadata` (src/crates/site-app/src/posts.rs). -/
structure PostMetadata where
  title : String
  written_on : String
  public : Bool
deriving DecidableEq, Repr

/-- `Post` (src/crates/site-app/src/posts.rs). -/
structure Post where
  html_content : String
  path : String
  metadata : PostMetadata
deriving DecidableEq, Repr

/-- The `Post` of the earlier snapshot (src/app/src/posts.rs), which
has no `path` field. -/
structure PostApp where
  html_content : String
  metadata : PostMetadata
deriving DecidableEq, Repr

/-- `extract_post` (src/crates/site-app/src/posts.rs), parametric in
the Markdown pipeline `md2html` (`crate::markdown::markdown_to_html`).
`matter.data.unwrap()` and the three field `unwrap()`s are Rust panics,
modelled as `Except.error (PErr.panicked ..)`. -/
def extract_post (md2html : String → String) (path input : String) :
    Except PErr Post :=
  let matter := parseMatter input
  match matter.data with
  | none => .error (.panicked "called Option unwrap on a None value")
  | some d =>
    match getStr d "title", getStr d "written_on", getBool d "public" with
    | some t, some w, some p =>
        .ok { html_content := md2html matter.content, path := path,
              metadata := { title := t, written_on := w, public := p } }
    | _, _, _ => .error (.panicked "called Result unwrap on an Err value")

/-- `extract_post` of the earlier snapshot (src/app/src/posts.rs):
identical except that it takes no path. -/
def extract_post_app (md2html : String → String) (input : String) :
    Except PErr PostApp :=
  let matter := parseMatter input
  match matter.data with
  | none => .error (.panicked "called Option unwrap on a None value")
  | some d =>
    match getStr d "title", getStr d "written_on", getBool d "public" with
    | some t, some w, some p =>
        .ok { html_content := md2html matter.content,
              metadata := { title := t, written_on := w, public := p } }
    | _, _, _ => .error (.panicked "called Result unwrap on an Err value")

/-- A directory entry of `./content/posts` as seen through
`std::fs::read_dir`: its file name, whether it is a regular file, and
(for the model of a successful read) its contents. -/
structure DirEntry where
  name : String
  isFile : Bool
  contents : String
deriving DecidableEq, Repr

/-- `Path::file_stem` on a file name, scanning for the final `.`: the
portion before it, except that a lone leading dot keeps the whole name.
Operates on the reversed character list. -/
def dropExtRev : List Char → Option (List Char)
  | [] => none
  | c :: rest =>
      if c = '.' then if rest.isEmpty then none else some rest
      else dropExtRev rest

/-- `Path::file_stem` of a file name. -/
def fileStem (s : String) : String :=
  match dropExtRev s.data.reverse with
  | some r => String.mk r.reverse
  | none => s

/-- The read-and-extract loop of `get_all_posts`
(src/crates/site-app/src/posts.rs): every regular file is read and fed
to `extract_post` with its stem; an `extract_post` panic aborts the
whole loop. -/
def collectPosts (md2html : String → String) :
    List DirEntry → Except PErr (List Post)
  | [] => .ok []
  | e :: rest =>
      if e.isFile then
        match extract_post md2html (fileStem e.name) e.contents with
        | .error p => .error p
        | .ok post => (collectPosts md2html rest).map fun ps => post :: ps
      else collectPosts md2html rest

/-- The loop of the earlier snapshot's `get_all_posts`
(src/app/src/posts.rs), same shape over path-less posts. -/
def collectPostsApp (md2html : String → String) :
    List DirEntry → Except PErr (List PostApp)
  | [] => .ok []
  | e :: rest =>
      if e.isFile then
        match extract_post_app md2html e.contents with
        | .error p => .error p
        | .ok post => (collectPostsApp md2html rest).map fun ps => post :: ps
      else collectPostsApp md2html rest

/-- Lexicographic `≤` on character lists (code-point order), matching
`str::cmp` on the ASCII data the repository uses. -/
def lexLe : List Char → List Char → Bool
  | [], _ => true
  | _ :: _, [] => false
  | a :: as, b :: bs => if a = b then lexLe as bs else decide (a < b)

/-- The comparator of `get_all_posts`'s `sort_by`: it REVERSES the code
points of each `written_on` string and compares the reversed strings
(the source comments "I know this is wrong and only reverses the order
of code points, but it's fine for now"). -/
def postLe (a b : Post) : Bool :=
  lexLe a.metadata.written_on.data.reverse b.metadata.written_on.data.reverse

/-- Insert into a sorted list, before the first element that is not
strictly smaller (a stable insertion, as Rust's stable `sort_by`). -/
def orderedInsertB {α : Type} (le : α → α → Bool) (a : α) :
    List α → List α
  | [] => [a]
  | b :: l => if le a b then a :: b :: l else b :: orderedInsertB le a l

/-- Stable insertion sort, modelling Rust's stable `Vec::sort_by`
(for a total preorder comparator the two agree). -/
def insertionSortB {α : Type} (le : α → α → Bool) : List α → List α
  | [] => []
  | a :: l => orderedInsertB le a (insertionSortB le l)

/-- `get_all_posts` (src/crates/site-app/src/posts.rs): collect the
posts of every regular directory entry, retain the public ones, then
sort with the reversed-`written_on` comparator (ascending, as Rust's
`sort_by` with `a.cmp(&b)`). -/
def get_all_posts (md2html : String → String) (entries : List DirEntry) :
    Except PErr (List Post) :=
  (collectPosts md2html entries).map fun posts =>
    insertionSortB postLe (posts.filter fun p => p.metadata.public)

/-- `get_all_posts` of the earlier snapshot (src/app/src/posts.rs): no
visibility filter and no sort at all. -/
def get_all_posts_app (md2html : String → String)
    (entries : List DirEntry) : Except PErr (List PostApp) :=
  collectPostsApp md2html entries

/-- The path string `get_post_by_path` opens:
`format!("./content/posts/{}.md", path)`. -/
def postPath (stem : String) : String :=
  "./content/posts/" ++ stem ++ ".md"

/-- `get_post_by_path` (src/crates/site-app/src/posts.rs) over a
filesystem modelled as a partial map from path strings to file
contents: a missing file is the source's
`.expect("failed to open file")` panic; a post whose metadata has
`public == false` is the returned `ServerFnError` "Post not found". -/
def get_post_by_path (md2html : String → String)
    (fs : String → Option String) (path : String) : Except PErr Post :=
  match fs (postPath path) with
  | none => .error (.panicked "failed to open file")
  | some input =>
    match extract_post md2html path input with
    | .error e => .error e
    | .ok post =>
        if post.metadata.public then .ok post
        else .error (.serverError "Post not found")

/-- Split a character list into path components at `'/'`. -/
def splitSlash : List Char → List (List Char)
  | [] => [[]]
  | c :: cs =>
      if c = '/' then [] :: splitSlash cs
      else
        match splitSlash cs with
        | l :: ls => (c :: l) :: ls
        | [] => [[c]]

/-- Resolve `.`/empty and `..` components against a stack of already
resolved components (the stack is kept reversed). -/
def normalizeAux : List (List Char) → List (List Char) → List (List Char)
  | stack, [] => stack.reverse
  | stack, comp :: rest =>
      if comp = [] || comp = ['.'] then normalizeAux stack rest
      else if comp = ['.', '.'] then normalizeAux stack.tail rest
      else normalizeAux (comp :: stack) rest

/-- The normalized component list of a path string. -/
def normalizePath (s : String) : List (List Char) :=
  normalizeAux [] (splitSlash s.data)

/-- Component-list prefix test. -/
def isPrefixL : List (List Char) → List (List Char) → Bool
  | [], _ => true
  | _ :: _, [] => false
  | a :: as, b :: bs => a = b && isPrefixL as bs

/-- `true` iff path `p` designates a file strictly inside directory
`dir` after resolving `.` and `..` components. -/
def isWithin (dir p : String) : Bool :=
  isPrefixL (normalizePath dir) (normalizePath p) &&
    decide (normalizePath dir ≠ normalizePath p)

/-- A well-formed post document with the three required front-matter
fields. -/
def postContents (title wo : String) (pub : Bool) : String :=
  "---\ntitle: " ++ title ++ "\nwritten_on: " ++ wo ++ "\npublic: " ++
    (if pub then "true" else "false") ++ "\n---\nbody"

/-- Two public posts whose dates share year and month and differ in the
day: the reversed-string comparator orders them ascending. -/
def exEntriesSort : List DirEntry :=
  [{ name := "a.md", isFile := true,
     contents := postContents "A" "2024-01-01" true },
   { name := "b.md", isFile := true,
     contents := postContents "B" "2024-01-02" true }]

/-- A directory holding one private and one public post. -/
def exEntriesMixed : List DirEntry :=
  [{ name := "secret.md", isFile := true,
     contents := postContents "Secret" "2024-03-01" false },
   { name := "open.md", isFile := true,
     contents := postContents "Open" "2024-03-02" true }]

/-- A filesystem holding exactly one post file, a private one at
`./content/posts/secret.md`. -/
def fsPrivate : String → Option String := fun p =>
  if p = postPath "secret" then
    some (postContents "Secret" "2024-03-01" false)
  else none

/-- A document that does not begin with a front-matter block. -/
def exNoMatter : String := "hello world"

/-- A heading whose only inline content is one text run. -/
def exHeadingOnly : List MdEvent :=
  [.start (.heading 1), .text "Hi", .end_ (.heading 1)]

/-- The event stream `add_markdown_heading_ids` produces on
`exHeadingOnly`. -/
def exHeadingOnlyOut : List MdEvent :=
  [.start (.heading 1), .text "Hi", .text " ",
    .html (anchorHtml "hi"), .end_ (.heading 1)]

/-- A heading containing a text run followed by an inline code span. -/
def exHeadingWithCode : List MdEvent :=
  [.start (.heading 1), .text "Hello ", .code "world",
    .end_ (.heading 1)]

/-- The event stream `add_markdown_heading_ids` produces on
`exHeadingWithCode`: the slug comes from the text run only. -/
def exHeadingWithCodeOut : List MdEvent :=
  [.start (.heading 1), .text "Hello ", .code "world", .text " ",
    .html (anchorHtml "hello"), .end_ (.heading 1)]

/-- A grammar lookup recognizing only the token `rust` (a stand-in for
`syntect`'s built-in grammar set on the two tokens exercised). -/
def exFind : String → Option String := fun s =>
  if s = "rust" then some "rust-grammar" else none

/-- A renderer that records which grammar highlighted which text, so
distinct grammars give distinct fragments (as `syntect`'s renderer
does). -/
def exRender : String → String → String := fun g s => g ++ ":" ++ s

/-- A recognized `rust` fence followed by a fence whose token `zzz` is
not in the grammar set. -/
def exTwoBlocks : List MdEvent :=
  [.start (.codeBlock (.fenced "rust")), .text "a",
    .end_ (.codeBlock (.fenced "rust")),
    .start (.codeBlock (.fenced "zzz")), .text "b",
    .end_ (.codeBlock (.fenced "zzz"))]

/-- A small well-nested stream with one fenced code block whose token
is unrecognized by `exFind`. -/
def exOneBlock : List MdEvent :=
  [.text "before", .start (.codeBlock (.fenced "zzz")), .text "x",
    .text "y", .end_ (.codeBlock (.fenced "zzz")), .text "after"]

/-- What the earlier snapshot's `get_all_posts` returns on
`exEntriesMixed`: both posts, the private one included. -/
def exAppPosts : List PostApp :=
  [{ html_content := "body",
     metadata := { title := "Secret", written_on := "2024-03-01",
                   public := false } },
   { html_content := "body",
     metadata := { title := "Open", written_on := "2024-03-02",
                   public := true } }]

/-- What the site-app `get_all_posts` returns on `exEntriesMixed`: the
public post only. -/
def exMixedPosts : List Post :=
  [{ html_content := "body", path := "open",
     metadata := { title := "Open", written_on := "2024-03-02",
                   public := true } }]

/-- The private post `fsPrivate` stores. -/
def exSecretPost : Post :=
  { html_content := "body", path := "secret",
    metadata := { title := "Secret", written_on := "2024-03-01",
                  public := false } }

/-- A filesystem whose only file sits OUTSIDE `./content/posts`, at the
traversal target `./content/posts/../secret.md` =
`./content/secret.md`. -/
def fsOutside : String → Option String := fun p =>
  if p = postPath "../secret" then some (postContents "X" "2024-04-01" true)
  else none

/-- A second filesystem that agrees with `fsPrivate` at
`./content/posts/hello.md` (both miss it) and nowhere else. -/
def fsOther : String → Option String := fun p =>
  if p = postPath "hello" then none else some "x"

end Blog

namespace Blog

example : slugify "Hello World" = "hello-world" := by decide

example : slugify "Hello " = "hello" := by decide

example :
    add_markdown_heading_ids
      [.start (.heading 1), .text "Hi", .end_ (.heading 1)] =
    [.start (.heading 1), .text "Hi", .text " ",
      .html (anchorHtml "hi"), .end_ (.heading 1)] := by decide

example :
    highlight_code (fun s => if s = "rust" then some "R" else none) "P"
      (fun g s => g ++ ":" ++ s)
      [.start (.codeBlock (.fenced "rust")), .text "a",
        .end_ (.codeBlock (.fenced "rust")),
        .start (.codeBlock (.fenced "zzz")), .text "b",
        .end_ (.codeBlock (.fenced "zzz"))] =
    .ok [.html "R:a", .html "R:b"] := by rfl

/-- C1, counterexample: the token `zzz` is not in the grammar set, yet
its block is rendered with the grammar selected by the EARLIER `rust`
block (`unwrap_or(syntax)` keeps the previous grammar), not with the
plain-text grammar — the claimed "regardless of which languages earlier
code blocks declared" fails. -/
theorem c1_unrecognized_token_counterexample :
    exFind "zzz" = none ∧
    highlight_code exFind "plain" exRender exTwoBlocks =
      .ok [.html (exRender "rust-grammar" "a"),
           .html (exRender "rust-grammar" "b")] ∧
    exRender "rust-grammar" "b" ≠ exRender "plain" "b" :=
  ⟨rfl, rfl, by decide⟩

/-- C2: on two public posts dated `2024-01-01` and `2024-01-02` the
repository returns them in ASCENDING `written_on` order (the comparator
sorts ascending by the code-point-reversed date string), so the claimed
descending order `a.written_on >= b.written_on` for `i < j` fails:
`"2024-01-01" >= "2024-01-02"` does not hold lexically. -/
theorem c2_sort_descending_failure :
    (get_all_posts id exEntriesSort).map
        (fun ps => ps.map fun p => p.metadata.written_on) =
      .ok ["2024-01-01", "2024-01-02"] ∧
    lexLe "2024-01-02".data "2024-01-01".data = false ∧
    lexLe "2024-01-01".data "2024-01-02".data = true :=
  ⟨rfl, by decide, by decide⟩

/-- C3, counterexample: on a filesystem holding exactly one private
post, looking up the private stem returns the `ServerFnError`
"Post not found" while looking up an absent stem is a panic
(`expect("failed to open file")`) — two different error kinds, so the
caller CAN distinguish a private post from an absent one. -/
theorem c3_private_vs_missing_counterexample :
    get_post_by_path id fsPrivate "secret" =
      .error (.serverError "Post not found") ∧
    get_post_by_path id fsPrivate "missing" =
      .error (.panicked "failed to open file") ∧
    PErr.sameKind (.serverError "Post not found")
      (.panicked "failed to open file") = false :=
  ⟨rfl, rfl, rfl⟩

/-- C4, counterexample: for the heading `# Hi` the anchor raw-HTML
event sits at index 3, immediately BEFORE the heading end event at
index 4 (the last event of the output), so no anchor is positioned
immediately after the heading's closing tag and the heading's rendered
content is extended by the space and anchor events. -/
theorem c4_anchor_position_counterexample :
    add_markdown_heading_ids exHeadingOnly = exHeadingOnlyOut ∧
    exHeadingOnlyOut.get? 3 = some (.html (anchorHtml "hi")) ∧
    exHeadingOnlyOut.get? 4 = some (.end_ (.heading 1)) ∧
    exHeadingOnlyOut.get? 5 = none ∧
    (∀ i : Fin 5, exHeadingOnlyOut.get? i.val = some (.end_ (.heading 1)) →
      i.val = 4) :=
  ⟨rfl, rfl, rfl, rfl, by decide⟩

/-- C5, counterexample: on a document with no front-matter block the
`Matter` parse does return no mapping and the whole input as content,
but `extract_post` then panics unwrapping `matter.data` — it does not
return an empty mapping with the body. -/
theorem c5_no_front_matter_counterexample :
    parseMatter exNoMatter = { data := none, content := exNoMatter } ∧
    extract_post id "p" exNoMatter =
      .error (.panicked "called Option unwrap on a None value") :=
  ⟨rfl, rfl⟩

/-- C6, counterexample: for the heading `# Hello ` followed by the code
span `world`, the claimed slug would be
`slugify("Hello " ++ "world") = "hello-world"`, but the transformer
accumulates only `Text` events, producing the anchor for `"hello"`; no
`"hello-world"` anchor appears in the output. -/
theorem c6_heading_slug_counterexample :
    slugify "Hello world" = "hello-world" ∧
    add_markdown_heading_ids exHeadingWithCode = exHeadingWithCodeOut ∧
    MdEvent.html (anchorHtml "hello") ∈ exHeadingWithCodeOut ∧
    MdEvent.html (anchorHtml "hello-world") ∉ exHeadingWithCodeOut :=
  ⟨rfl, rfl, by decide, by decide⟩

/-- C8, counterexample: the earlier snapshot's `get_all_posts`
(src/app/src/posts.rs), named by the claim, applies no `public` filter:
on a directory with a private and a public post it returns both, the
private one included. -/
theorem c8_public_only_counterexample :
    get_all_posts_app id exEntriesMixed = .ok exAppPosts ∧
    (exAppPosts.any fun p => !p.metadata.public) = true :=
  ⟨rfl, rfl⟩

/-- C10, counterexample: for the stem `../secret` the single opened
path is `./content/posts/../secret.md`, which resolves to
`./content/secret.md`, OUTSIDE the posts content directory — and the
lookup succeeds on a filesystem whose only file is that outside one. -/
theorem c10_single_file_counterexample :
    postPath "../secret" = "./content/posts/../secret.md" ∧
    isWithin "./content/posts" (postPath "../secret") = false ∧
    exceptOk (get_post_by_path id fsOutside "../secret") = true :=
  ⟨rfl, by decide, rfl⟩

/-- Main invariant of the highlighter loop: from any state whose
inside-a-block flag agrees with a strictly well-nested remainder, the
loop succeeds, emits exactly one additional raw-HTML event per
code-block end, and forwards exactly the text events that lie outside
code blocks. -/
theorem highlightGo_ok_spec {G : Type} (find : String → Option G)
    (render : G → String → String) (events : List MdEvent) :
    ∀ (b : Bool) (syn : G) (acc : String),
      wellNestedCode events b = true →
      ∃ out, highlightGo find render events b syn acc = .ok out ∧
        countHtml out = countHtml events + countCodeEnds events ∧
        textsOf out = textsOutside events b := by
  induction events with
  | nil =>
    intro b syn acc _
    exact ⟨[], rfl, rfl, rfl⟩
  | cons e rest ih =>
    intro b syn acc h
    match e with
    | .start (.codeBlock (.fenced lang)) =>
      simp only [wellNestedCode, Bool.and_eq_true, Bool.not_eq_true'] at h
      obtain ⟨hb, hrest⟩ := h
      subst hb
      obtain ⟨out, hout, hc, ht⟩ := ih true ((find lang).getD syn) acc hrest
      exact ⟨out, hout, by
        simpa [countHtml, countCodeEnds] using hc,
        by simpa [textsOf, textsOutside] using ht⟩
    | .start (.codeBlock .indented) =>
      simp only [wellNestedCode, Bool.and_eq_true, Bool.not_eq_true'] at h
      obtain ⟨hb, hrest⟩ := h
      subst hb
      obtain ⟨out, hout, hc, ht⟩ := ih true syn acc hrest
      exact ⟨out, hout, by
        simpa [countHtml, countCodeEnds] using hc,
        by simpa [textsOf, textsOutside] using ht⟩
    | .end_ (.codeBlock k) =>
      simp only [wellNestedCode, Bool.and_eq_true] at h
      obtain ⟨hb, hrest⟩ := h
      subst hb
      obtain ⟨out, hout, hc, ht⟩ := ih false syn "" hrest
      refine ⟨.html (render syn acc) :: out, ?_, ?_, ?_⟩
      · simp [highlightGo, hout, Except.map]
      · simp only [countHtml, countCodeEnds]
        omega
      · simpa [textsOf, textsOutside] using ht
    | .text s =>
      have hrest : wellNestedCode rest b = true := h
      cases b with
      | true =>
        obtain ⟨out, hout, hc, ht⟩ := ih true syn (acc ++ s) hrest
        refine ⟨out, ?_, ?_, ?_⟩
        · simpa [highlightGo] using hout
        · simpa [countHtml, countCodeEnds] using hc
        · simpa [textsOf, textsOutside] using ht
      | false =>
        obtain ⟨out, hout, hc, ht⟩ := ih false syn acc hrest
        refine ⟨.text s :: out, ?_, ?_, ?_⟩
        · simp [highlightGo, hout, Except.map]
        · simpa [countHtml, countCodeEnds] using hc
        · simp [textsOf, textsOutside, ht]
    | .start (.heading l) =>
      obtain ⟨out, hout, hc, ht⟩ := ih b syn acc h
      exact ⟨.start (.heading l) :: out, by simp [highlightGo, hout, Except.map],
        by simpa [countHtml, countCodeEnds] using hc,
        by simpa [textsOf, textsOutside] using ht⟩
    | .start (.other n) =>
      obtain ⟨out, hout, hc, ht⟩ := ih b syn acc h
      exact ⟨.start (.other n) :: out, by simp [highlightGo, hout, Except.map],
        by simpa [countHtml, countCodeEnds] using hc,
        by simpa [textsOf, textsOutside] using ht⟩
    | .end_ (.heading l) =>
      obtain ⟨out, hout, hc, ht⟩ := ih b syn acc h
      exact ⟨.end_ (.heading l) :: out, by simp [highlightGo, hout, Except.map],
        by simpa [countHtml, countCodeEnds] using hc,
        by simpa [textsOf, textsOutside] using ht⟩
    | .end_ (.other n) =>
      obtain ⟨out, hout, hc, ht⟩ := ih b syn acc h
      exact ⟨.end_ (.other n) :: out, by simp [highlightGo, hout, Except.map],
        by simpa [countHtml, countCodeEnds] using hc,
        by simpa [textsOf, textsOutside] using ht⟩
    | .code s =>
      obtain ⟨out, hout, hc, ht⟩ := ih b syn acc h
      exact ⟨.code s :: out, by simp [highlightGo, hout, Except.map],
        by simpa [countHtml, countCodeEnds] using hc,
        by simpa [textsOf, textsOutside] using ht⟩
    | .html s =>
      obtain ⟨out, hout, hc, ht⟩ := ih b syn acc h
      refine ⟨.html s :: out, by simp [highlightGo, hout, Except.map], ?_, ?_⟩
      · simp only [countHtml, countCodeEnds]
        omega
      · simpa [textsOf, textsOutside] using ht
    | .misc n =>
      obtain ⟨out, hout, hc, ht⟩ := ih b syn acc h
      exact ⟨.misc n :: out, by simp [highlightGo, hout, Except.map],
        by simpa [countHtml, countCodeEnds] using hc,
        by simpa [textsOf, textsOutside] using ht⟩

/-- In a strictly well-nested stream entered with flag `b`, the number
of code-block end events exceeds the number of start events by one
exactly when `b` is set. -/
theorem countCodeEnds_eq_countCodeStarts (events : List MdEvent) :
    ∀ b : Bool, wellNestedCode events b = true →
      countCodeEnds events = countCodeStarts events + b.toNat := by
  induction events with
  | nil =>
    intro b h
    simp only [wellNestedCode, Bool.not_eq_true'] at h
    subst h
    rfl
  | cons e rest ih =>
    intro b h
    match e with
    | .start (.codeBlock k) =>
      simp only [wellNestedCode, Bool.and_eq_true, Bool.not_eq_true'] at h
      obtain ⟨hb, hrest⟩ := h
      subst hb
      have := ih true hrest
      simp only [countCodeEnds, countCodeStarts, Bool.toNat_true,
        Bool.toNat_false] at *
      omega
    | .end_ (.codeBlock k) =>
      simp only [wellNestedCode, Bool.and_eq_true] at h
      obtain ⟨hb, hrest⟩ := h
      subst hb
      have := ih false hrest
      simp only [countCodeEnds, countCodeStarts, Bool.toNat_true,
        Bool.toNat_false] at *
      omega
    | .start (.heading l) => exact ih b h
    | .start (.other n) => exact ih b h
    | .end_ (.heading l) => exact ih b h
    | .end_ (.other n) => exact ih b h
    | .text s => exact ih b h
    | .code s => exact ih b h
    | .html s => exact ih b h
    | .misc n => exact ih b h

/-- C9: under strict well-nesting of code-block events, the fatal
branch (`panic!("this should never happen")` on an end event outside a
block) is unreachable: `highlight_code` always returns `ok`. -/
theorem c9_no_panic_when_well_nested {G : Type} (find : String → Option G)
    (plain : G) (render : G → String → String) (events : List MdEvent)
    (h : wellNestedCode events false = true) :
    exceptOk (highlight_code find plain render events) = true := by
  obtain ⟨out, hout, -, -⟩ :=
    highlightGo_ok_spec find render events false plain "" h
  simp [highlight_code, hout, exceptOk]

/-- Witness for C9 at a concrete well-nested stream. -/
theorem c9_no_panic_when_well_nested_witness :
    wellNestedCode exOneBlock false = true ∧
    exceptOk (highlight_code exFind "plain" exRender exOneBlock) = true :=
  ⟨by decide,
   c9_no_panic_when_well_nested exFind "plain" exRender exOneBlock (by decide)⟩

/-- C7: on a well-nested input stream the highlighter succeeds, the
number of raw-HTML events grows by exactly the number of code blocks
(one fragment per block; start and end counts agree), and the text
events of the output are exactly the input text events that lie outside
code blocks — no code-block text survives as a plain text event. -/
theorem c7_code_block_substitution {G : Type} (find : String → Option G)
    (plain : G) (render : G → String → String) (events : List MdEvent)
    (h : wellNestedCode events false = true) :
    ∃ out, highlight_code find plain render events = .ok out ∧
      countHtml out = countHtml events + countCodeStarts events ∧
      countCodeStarts events = countCodeEnds events ∧
      textsOf out = textsOutside events false := by
  obtain ⟨out, hout, hc, ht⟩ :=
    highlightGo_ok_spec find render events false plain "" h
  have hse := countCodeEnds_eq_countCodeStarts events false h
  simp only [Bool.toNat_false] at hse
  exact ⟨out, hout, by omega, by omega, ht⟩

/-- Witness for C7 at a concrete stream with one code block. -/
theorem c7_code_block_substitution_witness :
    wellNestedCode exOneBlock false = true ∧
    ∃ out, highlight_code exFind "plain" exRender exOneBlock = .ok out ∧
      countHtml out = countHtml exOneBlock + countCodeStarts exOneBlock ∧
      countCodeStarts exOneBlock = countCodeEnds exOneBlock ∧
      textsOf out = textsOutside exOneBlock false :=
  ⟨by decide,
   c7_code_block_substitution exFind "plain" exRender exOneBlock (by decide)⟩

/-- When every fenced token of the stream misses the grammar set, the
selected grammar never moves off its entry value: each block's fragment
is rendered with the grammar the loop was entered with. -/
theorem highlightGo_plain_spec {G : Type} (find : String → Option G)
    (render : G → String → String) (events : List MdEvent) :
    ∀ (b : Bool) (syn : G) (acc : String),
      wellNestedCode events b = true →
      (∀ l ∈ fencedTokens events, find l = none) →
      (∀ s, MdEvent.html s ∉ events) →
      ∃ out, highlightGo find render events b syn acc = .ok out ∧
        htmlPayloads out = (blockContents events b acc).map (render syn) := by
  induction events with
  | nil =>
    intro b syn acc _ _ _
    exact ⟨[], rfl, rfl⟩
  | cons e rest ih =>
    intro b syn acc h htok hhtml
    have htok' : ∀ l ∈ fencedTokens rest, find l = none := by
      intro l hl
      exact htok l (by
        match e with
        | .start (.codeBlock (.fenced lang)) => exact List.mem_cons_of_mem _ hl
        | .start (.codeBlock .indented) => exact hl
        | .start (.heading l') => exact hl
        | .start (.other n) => exact hl
        | .end_ t => exact hl
        | .text s => exact hl
        | .code s => exact hl
        | .html s => exact hl
        | .misc n => exact hl)
    have hhtml' : ∀ s, MdEvent.html s ∉ rest := by
      intro s hs
      exact hhtml s (List.mem_cons_of_mem _ hs)
    match e with
    | .start (.codeBlock (.fenced lang)) =>
      simp only [wellNestedCode, Bool.and_eq_true, Bool.not_eq_true'] at h
      obtain ⟨hb, hrest⟩ := h
      subst hb
      have hfind : find lang = none := htok lang (by
        simp [fencedTokens])
      obtain ⟨out, hout, hp⟩ := ih true syn acc hrest htok' hhtml'
      refine ⟨out, ?_, ?_⟩
      · simpa [highlightGo, hfind] using hout
      · simpa [blockContents] using hp
    | .start (.codeBlock .indented) =>
      simp only [wellNestedCode, Bool.and_eq_true, Bool.not_eq_true'] at h
      obtain ⟨hb, hrest⟩ := h
      subst hb
      obtain ⟨out, hout, hp⟩ := ih true syn acc hrest htok' hhtml'
      exact ⟨out, by simpa [highlightGo] using hout,
        by simpa [blockContents] using hp⟩
    | .end_ (.codeBlock k) =>
      simp only [wellNestedCode, Bool.and_eq_true] at h
      obtain ⟨hb, hrest⟩ := h
      subst hb
      obtain ⟨out, hout, hp⟩ := ih false syn "" hrest htok' hhtml'
      refine ⟨.html (render syn acc) :: out, ?_, ?_⟩
      · simp [highlightGo, hout, Except.map]
      · simp [htmlPayloads, blockContents, hp]
    | .text s =>
      have hrest : wellNestedCode rest b = true := h
      cases b with
      | true =>
        obtain ⟨out, hout, hp⟩ := ih true syn (acc ++ s) hrest htok' hhtml'
        exact ⟨out, by simpa [highlightGo] using hout,
          by simpa [blockContents] using hp⟩
      | false =>
        obtain ⟨out, hout, hp⟩ := ih false syn acc hrest htok' hhtml'
        exact ⟨.text s :: out, by simp [highlightGo, hout, Except.map],
          by simpa [htmlPayloads, blockContents] using hp⟩
    | .start (.heading l) =>
      obtain ⟨out, hout, hp⟩ := ih b syn acc h htok' hhtml'
      exact ⟨.start (.heading l) :: out,
        by simp [highlightGo, hout, Except.map],
        by simpa [htmlPayloads, blockContents] using hp⟩
    | .start (.other n) =>
      obtain ⟨out, hout, hp⟩ := ih b syn acc h htok' hhtml'
      exact ⟨.start (.other n) :: out,
        by simp [highlightGo, hout, Except.map],
        by simpa [htmlPayloads, blockContents] using hp⟩
    | .end_ (.heading l) =>
      obtain ⟨out, hout, hp⟩ := ih b syn acc h htok' hhtml'
      exact ⟨.end_ (.heading l) :: out,
        by simp [highlightGo, hout, Except.map],
        by simpa [htmlPayloads, blockContents] using hp⟩
    | .end_ (.other n) =>
      obtain ⟨out, hout, hp⟩ := ih b syn acc h htok' hhtml'
      exact ⟨.end_ (.other n) :: out,
        by simp [highlightGo, hout, Except.map],
        by simpa [htmlPayloads, blockContents] using hp⟩
    | .code s =>
      obtain ⟨out, hout, hp⟩ := ih b syn acc h htok' hhtml'
      exact ⟨.code s :: out, by simp [highlightGo, hout, Except.map],
        by simpa [htmlPayloads, blockContents] using hp⟩
    | .html s =>
      exact absurd (List.mem_cons_self _ _) (fun hmem => by
        exact absurd hmem (by exact fun hm => (hhtml s hm).elim))
    | .misc n =>
      obtain ⟨out, hout, hp⟩ := ih b syn acc h htok' hhtml'
      exact ⟨.misc n :: out, by simp [highlightGo, hout, Except.map],
        by simpa [htmlPayloads, blockContents] using hp⟩

/-- C1, amended: the fallback for an empty, absent or unrecognized
info-string token is the most recently selected grammar, not
unconditionally the plain-text one; in a document where NO fenced token
is recognized the selected grammar stays plain text, so every block is
rendered with the plain-text grammar, and the lookup fallback never
fails the pipeline. -/
theorem c1_unrecognized_token_fallback {G : Type} (find : String → Option G)
    (plain : G) (render : G → String → String) (events : List MdEvent)
    (hw : wellNestedCode events false = true)
    (htok : ∀ l ∈ fencedTokens events, find l = none)
    (hhtml : ∀ s, MdEvent.html s ∉ events) :
    ∃ out, highlight_code find plain render events = .ok out ∧
      htmlPayloads out = (blockContents events false "").map (render plain) :=
  highlightGo_plain_spec find render events false plain "" hw htok hhtml

/-- Witness for the amended C1 on a stream whose single fenced token is
unrecognized. -/
theorem c1_unrecognized_token_fallback_witness :
    wellNestedCode exOneBlock false = true ∧
    (∀ l ∈ fencedTokens exOneBlock, exFind l = none) ∧
    (∀ s, MdEvent.html s ∉ exOneBlock) ∧
    ∃ out, highlight_code exFind "plain" exRender exOneBlock = .ok out ∧
      htmlPayloads out =
        (blockContents exOneBlock false "").map (exRender "plain") :=
  ⟨by decide, by decide, by intro s hs; simp [exOneBlock] at hs,
   c1_unrecognized_token_fallback exFind "plain" exRender exOneBlock
     (by decide) (by decide) (by intro s hs; simp [exOneBlock] at hs)⟩

/-- Inside a heading, the loop passes every non-heading event through
unchanged while accumulating exactly the `text` payloads; at the
heading end it emits the space and the anchor for the slug of the
accumulated text, and only then the end event. -/
theorem addIdsGo_inner (l : Nat) (rest : List MdEvent) :
    ∀ (inner : List MdEvent) (acc : String),
      (∀ e ∈ inner, touchesHeading e = false) →
      addIdsGo (inner ++ .end_ (.heading l) :: rest) true acc =
        inner ++ .text " " ::
          .html (anchorHtml (slugify (textAccum inner acc))) ::
          .end_ (.heading l) ::
          addIdsGo rest false (slugify (textAccum inner acc)) := by
  intro inner
  induction inner with
  | nil =>
    intro acc _
    simp [addIdsGo, textAccum]
  | cons e es ih =>
    intro acc h
    have hes : ∀ e' ∈ es, touchesHeading e' = false := by
      intro e' he'
      exact h e' (List.mem_cons_of_mem _ he')
    have he : touchesHeading e = false := h e (List.mem_cons_self _ _)
    match e with
    | .start (.heading l') => simp [touchesHeading] at he
    | .end_ (.heading l') => simp [touchesHeading] at he
    | .text s =>
      simp only [List.cons_append, addIdsGo, if_pos rfl, List.cons.injEq,
        true_and]
      simpa [textAccum] using ih (acc ++ s) hes
    | .start (.codeBlock k) =>
      simp only [List.cons_append, addIdsGo, List.cons.injEq, true_and]
      simpa [textAccum] using ih acc hes
    | .start (.other n) =>
      simp only [List.cons_append, addIdsGo, List.cons.injEq, true_and]
      simpa [textAccum] using ih acc hes
    | .end_ (.codeBlock k) =>
      simp only [List.cons_append, addIdsGo, List.cons.injEq, true_and]
      simpa [textAccum] using ih acc hes
    | .end_ (.other n) =>
      simp only [List.cons_append, addIdsGo, List.cons.injEq, true_and]
      simpa [textAccum] using ih acc hes
    | .code s =>
      simp only [List.cons_append, addIdsGo, List.cons.injEq, true_and]
      simpa [textAccum] using ih acc hes
    | .html s =>
      simp only [List.cons_append, addIdsGo, List.cons.injEq, true_and]
      simpa [textAccum] using ih acc hes
    | .misc n =>
      simp only [List.cons_append, addIdsGo, List.cons.injEq, true_and]
      simpa [textAccum] using ih acc hes

/-- C4, amended: for every heading whose inline content is a sequence
of text runs, the transformer re-emits the heading's content unchanged
and inserts exactly one space text event and one anchor raw-HTML event
whose `href` and `id` equal the slug of the heading's plain text,
positioned immediately BEFORE the heading's end event (i.e. inside the
heading element), the remainder of the stream being processed
independently of it. -/
theorem c4_anchor_position (l : Nat) (ts : List String)
    (rest : List MdEvent) (hid : String) :
    addIdsGo
        (.start (.heading l) :: ts.map MdEvent.text ++
          .end_ (.heading l) :: rest) false hid =
      .start (.heading l) :: ts.map MdEvent.text ++
        .text " " ::
        .html (anchorHtml (slugify (textAccum (ts.map MdEvent.text) ""))) ::
        .end_ (.heading l) ::
        addIdsGo rest false (slugify (textAccum (ts.map MdEvent.text) "")) := by
  have hts : ∀ e ∈ ts.map MdEvent.text, touchesHeading e = false := by
    intro e he
    obtain ⟨t, -, rfl⟩ := List.mem_map.mp he
    rfl
  simpa [addIdsGo] using addIdsGo_inner l rest (ts.map MdEvent.text) "" hts

/-- C6, amended: the slug of a heading is derived from the
concatenation, in document order, of the payloads of its `Text` events
ONLY: nested emphasis contributes through its inner text events, but
the text inside an inline code span (`Event::Code`) contributes
nothing. -/
theorem c6_heading_slug (l : Nat) (inner rest : List MdEvent) (hid : String)
    (h : ∀ e ∈ inner, touchesHeading e = false) :
    addIdsGo (.start (.heading l) :: inner ++ .end_ (.heading l) :: rest)
        false hid =
      .start (.heading l) :: inner ++
        .text " " :: .html (anchorHtml (slugify (textAccum inner ""))) ::
        .end_ (.heading l) ::
        addIdsGo rest false (slugify (textAccum inner "")) := by
  simpa [addIdsGo] using addIdsGo_inner l rest inner "" h

/-- Witness for the amended C6 on a heading holding a text run, an
emphasized text run, and an inline code span: the slug collects the two
text runs and skips the code span. -/
theorem c6_heading_slug_witness :
    (∀ e ∈ [MdEvent.text "Hello ", MdEvent.start (.other "emphasis"),
        MdEvent.text "big ", MdEvent.end_ (.other "emphasis"),
        MdEvent.code "world"], touchesHeading e = false) ∧
    addIdsGo
        (.start (.heading 1) ::
          [MdEvent.text "Hello ", MdEvent.start (.other "emphasis"),
            MdEvent.text "big ", MdEvent.end_ (.other "emphasis"),
            MdEvent.code "world"] ++ .end_ (.heading 1) :: []) false "" =
      .start (.heading 1) ::
        [MdEvent.text "Hello ", MdEvent.start (.other "emphasis"),
          MdEvent.text "big ", MdEvent.end_ (.other "emphasis"),
          MdEvent.code "world"] ++
        .text " " ::
        .html (anchorHtml (slugify (textAccum
          [MdEvent.text "Hello ", MdEvent.start (.other "emphasis"),
            MdEvent.text "big ", MdEvent.end_ (.other "emphasis"),
            MdEvent.code "world"] ""))) ::
        .end_ (.heading 1) ::
        addIdsGo [] false (slugify (textAccum
          [MdEvent.text "Hello ", MdEvent.start (.other "emphasis"),
            MdEvent.text "big ", MdEvent.end_ (.other "emphasis"),
            MdEvent.code "world"] "")) :=
  ⟨by decide,
   c6_heading_slug 1
     [MdEvent.text "Hello ", MdEvent.start (.other "emphasis"),
       MdEvent.text "big ", MdEvent.end_ (.other "emphasis"),
       MdEvent.code "world"] [] "" (by decide)⟩

/-- C3, amended: a private post IS refused — the lookup returns the
`ServerFnError` "Post not found" — but a missing file is a panic
(`expect("failed to open file")`), not an error return of the same
kind, so the two outcomes are distinguishable. -/
theorem c3_private_vs_missing (md2html : String → String)
    (fs : String → Option String) (path : String) :
    (fs (postPath path) = none →
      get_post_by_path md2html fs path =
        .error (.panicked "failed to open file")) ∧
    (∀ input post, fs (postPath path) = some input →
      extract_post md2html path input = .ok post →
      post.metadata.public = false →
      get_post_by_path md2html fs path =
        .error (.serverError "Post not found")) := by
  constructor
  · intro h
    simp [get_post_by_path, h]
  · intro input post hin hex hpub
    simp [get_post_by_path, hin, hex, hpub]

/-- Witness for the amended C3 on a filesystem with one private post. -/
theorem c3_private_vs_missing_witness :
    get_post_by_path id fsPrivate "missing" =
      .error (.panicked "failed to open file") ∧
    get_post_by_path id fsPrivate "secret" =
      .error (.serverError "Post not found") :=
  ⟨(c3_private_vs_missing id fsPrivate "missing").1 (by decide),
   (c3_private_vs_missing id fsPrivate "secret").2
     (postContents "Secret" "2024-03-01" false) exSecretPost (by decide)
     rfl rfl⟩

/-- C5, amended: on a document that does not begin with a front-matter
delimiter, the `Matter` parse does return no mapping together with the
entire input as content, but `extract_post` then panics unwrapping the
absent mapping instead of returning an empty mapping with the body. -/
theorem c5_no_front_matter (md2html : String → String)
    (path input : String) (h : startsWithDelim input = false) :
    parseMatter input = { data := none, content := input } ∧
    extract_post md2html path input =
      .error (.panicked "called Option unwrap on a None value") := by
  have hp : parseMatter input = { data := none, content := input } := by
    rcases hs : splitLines input.data with _ | ⟨first, rest⟩
    · simp [parseMatter, hs]
    · have h' : ¬ first = yamlDelim := by
        unfold startsWithDelim at h
        rw [hs] at h
        simpa using h
      simp [parseMatter, hs, h']
  exact ⟨hp, by simp [extract_post, hp]⟩

/-- Witness for the amended C5 on a plain document. -/
theorem c5_no_front_matter_witness :
    startsWithDelim exNoMatter = false ∧
    (parseMatter exNoMatter = { data := none, content := exNoMatter } ∧
     extract_post id "p" exNoMatter =
       .error (.panicked "called Option unwrap on a None value")) :=
  ⟨by decide, c5_no_front_matter id "p" exNoMatter (by decide)⟩

/-- Membership is invariant under the stable insertion. -/
theorem mem_orderedInsertB {α : Type} (le : α → α → Bool) (a x : α) :
    ∀ l : List α, x ∈ orderedInsertB le a l ↔ x = a ∨ x ∈ l := by
  intro l
  induction l with
  | nil => simp [orderedInsertB]
  | cons b bs ih =>
    cases hle : le a b with
    | true =>
      simp only [orderedInsertB, hle, if_pos]
      simp [List.mem_cons]
    | false =>
      simp only [orderedInsertB, hle]
      simp only [Bool.false_eq_true, if_false]
      simp [List.mem_cons, ih]
      tauto

/-- Membership is invariant under the insertion sort. -/
theorem mem_insertionSortB {α : Type} (le : α → α → Bool) (x : α) :
    ∀ l : List α, x ∈ insertionSortB le l ↔ x ∈ l := by
  intro l
  induction l with
  | nil => simp [insertionSortB]
  | cons a as ih =>
    simp [insertionSortB, mem_orderedInsertB, ih, List.mem_cons]

/-- C8, amended: the site-app `get_all_posts`
(src/crates/site-app/src/posts.rs) retains only posts with
`metadata.public == true`, so every post of a successfully returned
collection is public; the claim fails only for the earlier snapshot's
`get_all_posts` (src/app/src/posts.rs), which filters nothing. -/
theorem c8_public_only (md2html : String → String)
    (entries : List DirEntry) (posts : List Post)
    (h : get_all_posts md2html entries = .ok posts) :
    ∀ p ∈ posts, p.metadata.public = true := by
  intro p hp
  unfold get_all_posts at h
  cases hc : collectPosts md2html entries with
  | error e =>
    rw [hc] at h
    simp [Except.map] at h
  | ok l =>
    rw [hc] at h
    simp only [Except.map, Except.ok.injEq] at h
    subst h
    have hmem := (mem_insertionSortB postLe p _).mp hp
    exact (List.mem_filter.mp hmem).2

/-- Witness for the amended C8 on a directory holding a private and a
public post. -/
theorem c8_public_only_witness :
    get_all_posts id exEntriesMixed = .ok exMixedPosts ∧
    ∀ p ∈ exMixedPosts, p.metadata.public = true :=
  ⟨rfl, c8_public_only id exEntriesMixed exMixedPosts rfl⟩

/-- A slash-free character list is one single path component. -/
theorem splitSlash_noSlash (cs : List Char) (h : '/' ∉ cs) :
    splitSlash cs = [cs] := by
  induction cs with
  | nil => rfl
  | cons c cs ih =>
    have hc : ¬ c = '/' := fun he => h (he ▸ List.mem_cons_self _ _)
    have h' : '/' ∉ cs := fun hm => h (List.mem_cons_of_mem _ hm)
    simp [splitSlash, hc, ih h']

/-- Splitting at the first slash after a slash-free head peels off one
component. -/
theorem splitSlash_append (cs₁ cs₂ : List Char) (h : '/' ∉ cs₁) :
    splitSlash (cs₁ ++ '/' :: cs₂) = cs₁ :: splitSlash cs₂ := by
  induction cs₁ with
  | nil => simp [splitSlash]
  | cons c cs ih =>
    have hc : ¬ c = '/' := fun he => h (he ▸ List.mem_cons_self _ _)
    have h' : '/' ∉ cs := fun hm => h (List.mem_cons_of_mem _ hm)
    simp [splitSlash, hc, ih h']

/-- For a slash-free stem, the path `get_post_by_path` opens normalizes
to the component list `content / posts / {stem}.md`. -/
theorem normalizePath_postPath (stem : String) (h : '/' ∉ stem.data) :
    normalizePath (postPath stem) =
      ["content".data, "posts".data, stem.data ++ ".md".data] := by
  have hmd : '/' ∉ stem.data ++ ".md".data := by
    intro hm
    rcases List.mem_append.mp hm with h1 | h2
    · exact h h1
    · simp at h2
  have hs1 : splitSlash ((postPath stem).data) =
      ['.'] :: splitSlash
        ("content".data ++ '/' ::
          ("posts".data ++ '/' :: (stem.data ++ ".md".data))) :=
    splitSlash_append ['.'] _ (by decide)
  have hs2 : splitSlash
      ("content".data ++ '/' ::
        ("posts".data ++ '/' :: (stem.data ++ ".md".data))) =
      "content".data :: splitSlash
        ("posts".data ++ '/' :: (stem.data ++ ".md".data)) :=
    splitSlash_append _ _ (by decide)
  have hs3 : splitSlash ("posts".data ++ '/' :: (stem.data ++ ".md".data)) =
      "posts".data :: splitSlash (stem.data ++ ".md".data) :=
    splitSlash_append _ _ (by decide)
  have hs4 : splitSlash (stem.data ++ ".md".data) =
      [stem.data ++ ".md".data] := splitSlash_noSlash _ hmd
  have hne1 : ¬ (stem.data ++ ['.', 'm', 'd'] = []) := by
    intro he
    have hl := congrArg List.length he
    simp [List.length_append] at hl
  have hne2 : ¬ (stem.data ++ ['.', 'm', 'd'] = ['.']) := by
    intro he
    have hl := congrArg List.length he
    simp [List.length_append] at hl
  have hne3 : ¬ (stem.data ++ ['.', 'm', 'd'] = ['.', '.']) := by
    intro he
    have hl := congrArg List.length he
    simp [List.length_append] at hl
  unfold normalizePath
  rw [hs1, hs2, hs3, hs4]
  simp [normalizeAux, hne1, hne2, hne3]

/-- C10, amended: `get_post_by_path` consults exactly one filesystem
path, `./content/posts/{stem}.md` (its result depends only on that
file), and when the stem contains no path separator that file lies
inside the posts content directory; a stem with traversal components
(e.g. `../secret`) escapes it. -/
theorem c10_single_file (md2html : String → String) (path : String) :
    (∀ fs fs' : String → Option String,
      fs (postPath path) = fs' (postPath path) →
      get_post_by_path md2html fs path =
        get_post_by_path md2html fs' path) ∧
    ('/' ∉ path.data →
      isWithin "./content/posts" (postPath path) = true) := by
  constructor
  · intro fs fs' hagree
    unfold get_post_by_path
    rw [hagree]
  · intro h
    have hn := normalizePath_postPath path h
    have hdir : normalizePath "./content/posts" =
        ["content".data, "posts".data] := by decide
    unfold isWithin
    rw [hn, hdir]
    simp [isPrefixL]

/-- Witness for the amended C10 at the stem `hello`: the lookup result
agrees across two filesystems that agree only on
`./content/posts/hello.md`, and that path stays inside the posts
directory. -/
theorem c10_single_file_witness :
    fsPrivate (postPath "hello") = fsOther (postPath "hello") ∧
    get_post_by_path id fsPrivate "hello" =
      get_post_by_path id fsOther "hello" ∧
    ('/' ∉ "hello".data) ∧
    isWithin "./content/posts" (postPath "hello") = true :=
  ⟨by decide,
   (c10_single_file id "hello").1 fsPrivate fsOther (by decide),
   by decide,
   (c10_single_file id "hello").2 (by decide)⟩

end Blog
